import Mathlib

/-!
# archivex: directory-tree archiving (ZIP, TAR+gzip)

A shallow embedding of `archivex.go`.  Go strings are modelled as `List Char`
(paths are assumed to be valid UTF-8, so that matching on the ASCII bytes `/` and `.`
agrees with matching on characters).  The path separator is `/` (Unix).
-/

namespace Archivex

/-- Go `string`. -/
abbrev Str := List Char

/-- Go `error` values (only their identity matters). -/
abbrev Err := String

/-! ## The pieces of `strings` and `path` that the source calls -/

/-- Go `strings.HasSuffix(s, suffix)`. -/
def hasSuffix (s suffix : Str) : Bool := suffix.isSuffixOf s

/-- Go `strings.Index(s, substr)`: position of the leftmost occurrence, `none` for Go's `-1`. -/
def stringsIndex : Str → Str → Option Nat
  | [], substr => if substr = [] then some 0 else none
  | c :: cs, substr =>
    if substr.isPrefixOf (c :: cs) then some 0
    else (stringsIndex cs substr).map (· + 1)

/-- The replacement loop of `strings.Replace` for a non-empty `old`: at most `k` times, cut at the
leftmost occurrence of `old` in what is left, emit the text before it and `new`, and go on behind
the occurrence; what is left when no occurrence remains is emitted unchanged. -/
def replaceLoop (old new : Str) : Nat → Str → Str
  | 0, s => s
  | k + 1, s =>
    match stringsIndex s old with
    | none => s
    | some j => s.take j ++ new ++ replaceLoop old new k (s.drop (j + old.length))

/-- The replacement loop of `strings.Replace` for an empty `old`: `new` is inserted at the start
and after each character, at most `k` times. -/
def replaceEmpty (new : Str) : Nat → Str → Str
  | 0, s => s
  | _ + 1, [] => new
  | k + 1, c :: cs => new ++ c :: replaceEmpty new k cs

/-- Go `strings.Replace(s, old, new, n)`; `n < 0` lifts the limit on the number of replacements.
Go clamps `n` to the number `m` of non-overlapping occurrences; a non-empty `old` occurs at most
`len(s)` times and the empty one `len(s) + 1` times, and the loops stop by themselves when no
occurrence is left. -/
def stringsReplace (s old new : Str) (n : Int) : Str :=
  if old = new ∨ n = 0 then s
  else if old = [] then
    replaceEmpty new (if n < 0 then s.length + 1 else min n.toNat (s.length + 1)) s
  else
    replaceLoop old new (if n < 0 then s.length else min n.toNat s.length) s

/-- Go `strings.Split(s, "/")`. -/
def splitSlash : Str → List Str
  | [] => [[]]
  | c :: cs =>
    if c = '/' then [] :: splitSlash cs
    else
      match splitSlash cs with
      | [] => [[c]]
      | h :: t => (c :: h) :: t

/-- Go `strings.Join(elems, "/")`. -/
def joinSlash (elems : List Str) : Str := List.intercalate ['/'] elems

/-- One path element met by `path.Clean`, with the elements kept so far in `out` (last kept
element first): empty elements and `.` are dropped; `..` removes the last kept element when there
is one that is not itself `..`, is kept at the front of a path that is not rooted, and is dropped
at the front of a rooted path; any other element is kept. -/
def cleanStep (rooted : Bool) (out : List Str) (c : Str) : List Str :=
  if c = [] ∨ c = ['.'] then out
  else if c = ['.', '.'] then
    match out with
    | top :: rest => if top = ['.', '.'] then (if rooted then out else c :: out) else rest
    | [] => if rooted then out else [c]
  else c :: out

/-- Go `path.Clean(path)`, element by element. -/
def pathClean (p : Str) : Str :=
  if p = [] then ['.']
  else
    let rooted : Bool := decide (p.head? = some '/')
    let out := ((splitSlash p).foldl (cleanStep rooted) []).reverse
    if rooted then '/' :: joinSlash out
    else if out = [] then ['.'] else joinSlash out

/-- Go `path.Join(elem...)`: leading empty elements are skipped, the rest is joined with `/` and
cleaned; all elements empty gives the empty string. -/
def pathJoin : List Str → Str
  | [] => []
  | e :: es => if e = [] then pathJoin es else pathClean (joinSlash (e :: es))

/-! ## The file system seen by a walk -/

/-- Go `os.FileInfo`, as far as the walk reads it. -/
structure FileInfo where
  name : Str
  size : Nat
  isDir : Bool
  deriving DecidableEq, Repr

/-- A file-system entry: a non-directory file with its bytes and the outcome of `os.Open` on it,
or a directory with the outcome of `ioutil.ReadDir` on it and its children in listing order. -/
inductive FsNode where
  | file (name : Str) (data : List Nat) (openErr : Option Err)
  | dir (name : Str) (readErr : Option Err) (children : List FsNode)

namespace FsNode

/-- The `Name()` of the entry. -/
def entryName : FsNode → Str
  | file n _ _ => n
  | dir n _ _ => n

/-- The `IsDir()` of the entry. -/
def isDir : FsNode → Bool
  | file _ _ _ => false
  | dir _ _ _ => true

/-- The `os.FileInfo` that `ioutil.ReadDir` reports for the entry. -/
def info : FsNode → FileInfo
  | file n d _ => ⟨n, d.length, false⟩
  | dir n _ _ => ⟨n, 0, true⟩

end FsNode

/-- The `*os.File` handed to the write callback as its `io.Reader`. -/
structure Reader where
  path : Str
  data : List Nat
  deriving DecidableEq, Repr

/-- Go `ArchiveWriteFunc`, with the state `σ` of the archive encoder passed explicitly. -/
abbrev ArchiveWriteFunc (σ : Type) := FileInfo → Reader → Str → σ → σ × Option Err

/-- What a walk does that can be observed from outside: `resolved dir rootDir` is a call
`getSubDir(dir, rootDir, _)`, `opened` a successful `os.Open`, `wrote` a call of the write
callback with what it returned, `closed` a deferred `file.Close()`. -/
inductive Event where
  | resolved (dir rootDir : Str)
  | opened (full : Str)
  | wrote (info : FileInfo) (file : Reader) (entry : Str) (err : Option Err)
  | closed (full : Str)
  deriving DecidableEq, Repr

/-- Outcome of a walk: encoder state, observable events in order, returned `error` (`none` is
Go's `nil`). -/
structure WalkResult (σ : Type) where
  state : σ
  events : List Event
  err : Option Err

/-! ## `getSubDir` and `addAll` -/

/-- Go `getSubDir`. -/
def getSubDir (dir rootDir : Str) (includeCurrentFolder : Bool) : Str :=
  let subDir := stringsReplace dir rootDir [] 1
  if includeCurrentFolder then
    let parts := splitSlash rootDir
    pathJoin [parts.getLast?.getD [], subDir]
  else subDir

/-- The second loop of `addAll`: each non-directory file is opened, its close is deferred, and it
is handed to the callback under `path.Join(subDir, name)`.  A failing open or callback returns
at once.  `deferred` holds the files whose close is pending, the most recent first; it is
returned together with the outcome so that the caller runs the deferred closes. -/
def writeFiles {σ : Type} (writerFunc : ArchiveWriteFunc σ) (dir subDir : Str) :
    List FsNode → σ → List Str → WalkResult σ × List Str
  | [], s, deferred => (⟨s, [], none⟩, deferred)
  | FsNode.dir _ _ _ :: rest, s, deferred => writeFiles writerFunc dir subDir rest s deferred
  | FsNode.file name data openErr :: rest, s, deferred =>
    let full := pathJoin [dir, name]
    match openErr with
    | some e => (⟨s, [], some e⟩, deferred)
    | none =>
      let entry := pathJoin [subDir, name]
      let info : FileInfo := ⟨name, data.length, false⟩
      let r := writerFunc info ⟨full, data⟩ entry s
      match r.2 with
      | some e => (⟨r.1, [Event.opened full, Event.wrote info ⟨full, data⟩ entry (some e)], some e⟩,
          full :: deferred)
      | none =>
        let rest' := writeFiles writerFunc dir subDir rest r.1 (full :: deferred)
        (⟨rest'.1.state,
          Event.opened full :: Event.wrote info ⟨full, data⟩ entry none :: rest'.1.events,
          rest'.1.err⟩, rest'.2)

mutual
/-- Go `addAll(dir, rootDir, includeCurrentFolder, writerFunc)`, run on the directory entry that
`dir` names.  `ioutil.ReadDir` fails on an entry that is not a directory. -/
def addAll {σ : Type} (writerFunc : ArchiveWriteFunc σ) (rootDir : Str)
    (includeCurrentFolder : Bool) (dir : Str) : FsNode → σ → WalkResult σ
  | FsNode.file _ _ _, s => ⟨s, [], some "readdir: not a directory"⟩
  | FsNode.dir _ (some e) _, s => ⟨s, [], some e⟩
  | FsNode.dir _ none children, s =>
    let sub := recurseDirs writerFunc rootDir includeCurrentFolder dir children s
    let subDir := getSubDir dir rootDir includeCurrentFolder
    let own := writeFiles writerFunc dir subDir children sub.1 []
    ⟨own.1.state,
      sub.2 ++ Event.resolved dir rootDir :: (own.1.events ++ own.2.map Event.closed),
      own.1.err⟩
/-- The first loop of `addAll`: every directory among the listed entries is walked at once, and
the `error` its walk returns is dropped; the other entries wait for `writeFiles`. -/
def recurseDirs {σ : Type} (writerFunc : ArchiveWriteFunc σ) (rootDir : Str)
    (includeCurrentFolder : Bool) (dir : Str) : List FsNode → σ → σ × List Event
  | [], s => (s, [])
  | FsNode.file _ _ _ :: rest, s =>
    recurseDirs writerFunc rootDir includeCurrentFolder dir rest s
  | FsNode.dir name readErr children :: rest, s =>
    let full := pathJoin [dir, name]
    let r := addAll writerFunc rootDir includeCurrentFolder full
      (FsNode.dir name readErr children) s
    let rs := recurseDirs writerFunc rootDir includeCurrentFolder dir rest r.state
    (rs.1, r.events ++ rs.2)
end

/-- The walk that `ZipFile.AddAll(dir, includeCurrentFolder)` and `TarFile.AddAll` start: the
argument is cleaned and used both as first directory and as root. -/
def walkAll {σ : Type} (writerFunc : ArchiveWriteFunc σ) (dir : Str)
    (includeCurrentFolder : Bool) (root : FsNode) (s : σ) : WalkResult σ :=
  addAll writerFunc (pathClean dir) includeCurrentFolder (pathClean dir) root s

/-- The entry names handed to the write callback, in order. -/
def entryNames : List Event → List Str
  | [] => []
  | Event.wrote _ _ entry _ :: rest => entry :: entryNames rest
  | _ :: rest => entryNames rest

/-- The `os.FileInfo` values handed to the write callback, in order. -/
def writtenInfos : List Event → List FileInfo
  | [] => []
  | Event.wrote info _ _ _ :: rest => info :: writtenInfos rest
  | _ :: rest => writtenInfos rest

/-- The calls of the write callback, in order: entry name and returned `error`. -/
def writeCalls : List Event → List (Str × Option Err)
  | [] => []
  | Event.wrote _ _ entry err :: rest => (entry, err) :: writeCalls rest
  | _ :: rest => writeCalls rest

/-- The calls `getSubDir(dir, rootDir, _)` made by a walk, in order. -/
def subDirCalls : List Event → List (Str × Str)
  | [] => []
  | Event.resolved dir rootDir :: rest => (dir, rootDir) :: subDirCalls rest
  | _ :: rest => subDirCalls rest

/-- The paths of the files opened by the events, in the order of opening. -/
def openedPaths : List Event → List Str
  | [] => []
  | Event.opened full :: rest => full :: openedPaths rest
  | _ :: rest => openedPaths rest

/-- Number of file streams open after one more event. -/
def openStep (n : Nat) : Event → Nat
  | Event.opened _ => n + 1
  | Event.closed _ => n - 1
  | _ => n

/-- Number of file streams opened by the walk that are open after the events `evs`. -/
def openCount (evs : List Event) : Nat := evs.foldl openStep 0

/-- The largest number of file streams open at any instant while the events `evs` happen,
starting with `n` open streams. -/
def maxOpen (n : Nat) : List Event → Nat
  | [] => n
  | e :: rest => max n (maxOpen (openStep n e) rest)

/-! ## Measures of a tree -/

mutual
/-- The non-directory files of a tree, in listing order, as `ioutil.ReadDir` reports them. -/
def FsNode.files : FsNode → List FileInfo
  | FsNode.file n d _ => [⟨n, d.length, false⟩]
  | FsNode.dir _ _ children => filesOfList children
/-- The non-directory files below the listed entries. -/
def filesOfList : List FsNode → List FileInfo
  | [] => []
  | x :: rest => x.files ++ filesOfList rest
end

/-- The `os.FileInfo` values of the non-directory files among the listed entries. -/
def ownFiles : List FsNode → List FileInfo
  | [] => []
  | FsNode.file n d _ :: rest => ⟨n, d.length, false⟩ :: ownFiles rest
  | FsNode.dir _ _ _ :: rest => ownFiles rest

mutual
/-- Every `ioutil.ReadDir` and `os.Open` in the tree succeeds. -/
def FsNode.healthy : FsNode → Bool
  | FsNode.file _ _ openErr => openErr.isNone
  | FsNode.dir _ readErr children => readErr.isNone && healthyList children
/-- Every entry of the list is healthy. -/
def healthyList : List FsNode → Bool
  | [] => true
  | x :: rest => x.healthy && healthyList rest
end

/-- A name that `ioutil.ReadDir` can report: not empty, without `/`, and neither `.` nor `..`. -/
def validName (n : Str) : Bool :=
  n ≠ [] && !n.contains '/' && n ≠ ['.'] && n ≠ ['.', '.']

/-- A path that `path.Clean` leaves as it is and that is neither empty, `.` nor `/`. -/
def stablePath (p : Str) : Bool :=
  p ≠ [] && pathClean p = p && p ≠ ['.'] && p ≠ ['/']

mutual
/-- Every entry below the node (the node's own name apart) has a valid name. -/
def FsNode.wellNamed : FsNode → Bool
  | FsNode.file _ _ _ => true
  | FsNode.dir _ _ children => wellNamedList children
/-- Every listed entry has a valid name, and so have the entries below it. -/
def wellNamedList : List FsNode → Bool
  | [] => true
  | x :: rest => validName x.entryName && x.wellNamed && wellNamedList rest
end

mutual
/-- The slash-separated paths, relative to the node, of the non-directory files below it, in the
order of the walk: the files of each subdirectory first, then the directory's own files. -/
def FsNode.relPaths : FsNode → List Str
  | FsNode.file _ _ _ => []
  | FsNode.dir _ _ children => relPathsDirs children ++ relPathsOwn children
/-- The relative paths of the files in the subdirectories among the listed entries. -/
def relPathsDirs : List FsNode → List Str
  | [] => []
  | FsNode.file _ _ _ :: rest => relPathsDirs rest
  | FsNode.dir n r c :: rest =>
    (FsNode.dir n r c).relPaths.map (fun p => n ++ '/' :: p) ++ relPathsDirs rest
/-- The names of the non-directory files among the listed entries. -/
def relPathsOwn : List FsNode → List Str
  | [] => []
  | FsNode.file n _ _ :: rest => n :: relPathsOwn rest
  | FsNode.dir _ _ _ :: rest => relPathsOwn rest
end

mutual
/-- The largest number of non-directory files that one directory of the tree lists. -/
def FsNode.maxOwnFiles : FsNode → Nat
  | FsNode.file _ _ _ => 0
  | FsNode.dir _ _ children => max (relPathsOwn children).length (maxOwnFilesList children)
/-- The largest number of non-directory files in one directory below the listed entries. -/
def maxOwnFilesList : List FsNode → Nat
  | [] => 0
  | x :: rest => max x.maxOwnFiles (maxOwnFilesList rest)
end

/-! ## `Create`, `Add`, `AddFile`, `Close` -/

/-- The name that `ZipFile.Create(name)` settles on. -/
def zipCreateName (name : Str) : Str :=
  if hasSuffix name ".zip".toList != true then
    if hasSuffix name ".tar.gz".toList == true then
      stringsReplace name ".tar.gz".toList ".zip".toList (-1)
    else name ++ ".zip".toList
  else name

/-- The name that `TarFile.Create(name)` settles on. -/
def tarCreateName (name : Str) : Str :=
  if hasSuffix name ".tar.gz".toList != true then
    if hasSuffix name ".zip".toList == true then
      stringsReplace name ".zip".toList ".tar.gz".toList (-1)
    else name ++ ".tar.gz".toList
  else name

/-- Outcome of a method that returns an `error`: `nil`, an error value, or a run-time panic. -/
inductive GoResult where
  | nil
  | error (e : Err)
  | panicked
  deriving DecidableEq, Repr

/-- The archive encoder behind a non-nil `*zip.Writer` or `*tar.Writer` (an external
collaborator), with its state `W` passed explicitly.  `header` stands for `Create` and
`WriteHeader`, `write` for `Write`, `close` for `Close`. -/
structure Encoder (W : Type) where
  newWriter : Str → W
  header : W → Str → Nat → W × Option Err
  write : W → List Nat → W × Option Err
  close : W → W × Option Err

/-- Go `ZipFile` and `TarFile`: the `Writer` pointer (`none` is `nil`) and the `Name`. -/
structure ArchiveFile (W : Type) where
  Writer : Option W
  Name : Str

/-- What a `Create` call leaves behind: the receiver, the path it gave to `os.Create`, and the
returned `error`. -/
structure CreateOutcome (W : Type) where
  file : ArchiveFile W
  created : Str
  result : GoResult

/-- Go `(*ZipFile).Create(name)`; `osCreate` is the outcome of `os.Create` on a path. -/
def ZipFile.Create {W : Type} (enc : Encoder W) (osCreate : Str → Option Err)
    (z : ArchiveFile W) (name : Str) : CreateOutcome W :=
  let z1 : ArchiveFile W := { z with Name := zipCreateName name }
  match osCreate z1.Name with
  | some e => ⟨z1, z1.Name, GoResult.error e⟩
  | none => ⟨{ z1 with Writer := some (enc.newWriter z1.Name) }, z1.Name, GoResult.nil⟩

/-- Go `(*TarFile).Create(name)`. -/
def TarFile.Create {W : Type} (enc : Encoder W) (osCreate : Str → Option Err)
    (t : ArchiveFile W) (name : Str) : CreateOutcome W :=
  let t1 : ArchiveFile W := { t with Name := tarCreateName name }
  match osCreate t1.Name with
  | some e => ⟨t1, t1.Name, GoResult.error e⟩
  | none => ⟨{ t1 with Writer := some (enc.newWriter t1.Name) }, t1.Name, GoResult.nil⟩

/-- An `error` value as the outcome of a call. -/
def GoResult.ofErr : Option Err → GoResult
  | none => GoResult.nil
  | some e => GoResult.error e

/-- Writing one entry through the `Writer` pointer: header first, then the bytes.  The methods of
`*zip.Writer` and `*tar.Writer` read fields of their receiver on entry, so a nil pointer makes
the call panic with a nil dereference. -/
def writeEntry {W : Type} (enc : Encoder W) (a : ArchiveFile W) (name : Str)
    (file : List Nat) : ArchiveFile W × GoResult :=
  match a.Writer with
  | none => (a, GoResult.panicked)
  | some w =>
    match enc.header w name file.length with
    | (w1, some e) => ({ a with Writer := some w1 }, GoResult.error e)
    | (w1, none) =>
      let r := enc.write w1 file
      ({ a with Writer := some r.1 }, GoResult.ofErr r.2)

/-- Go `(*ZipFile).Add(name, file)`. -/
def ZipFile.Add {W : Type} (enc : Encoder W) (z : ArchiveFile W) (name : Str)
    (file : List Nat) : ArchiveFile W × GoResult :=
  writeEntry enc z name file

/-- Go `(*TarFile).Add(name, file)`. -/
def TarFile.Add {W : Type} (enc : Encoder W) (t : ArchiveFile W) (name : Str)
    (file : List Nat) : ArchiveFile W × GoResult :=
  writeEntry enc t name file

/-- Go `(*ZipFile).AddFile(name)`; `readFile` is the outcome of `ioutil.ReadFile` on a path. -/
def ZipFile.AddFile {W : Type} (enc : Encoder W) (readFile : Str → Except Err (List Nat))
    (z : ArchiveFile W) (name : Str) : ArchiveFile W × GoResult :=
  match readFile name with
  | Except.error e => (z, GoResult.error e)
  | Except.ok bytearq => writeEntry enc z name bytearq

/-- Go `(*TarFile).AddFile(name)`. -/
def TarFile.AddFile {W : Type} (enc : Encoder W) (readFile : Str → Except Err (List Nat))
    (t : ArchiveFile W) (name : Str) : ArchiveFile W × GoResult :=
  match readFile name with
  | Except.error e => (t, GoResult.error e)
  | Except.ok bytearq => writeEntry enc t name bytearq

/-- Go `(*ZipFile).Close()` and `(*TarFile).Close()`: `Writer.Close()` through the pointer. -/
def ArchiveFile.Close {W : Type} (enc : Encoder W) (a : ArchiveFile W) :
    ArchiveFile W × GoResult :=
  match a.Writer with
  | none => (a, GoResult.panicked)
  | some w =>
    let r := enc.close w
    ({ a with Writer := some r.1 }, GoResult.ofErr r.2)

/-! ## Concrete inputs -/

/-- A callback that always succeeds and keeps no state. -/
def okWriter : ArchiveWriteFunc Unit := fun _ _ _ s => (s, none)

/-- A callback that fails on files named `y.txt` and succeeds on all others. -/
def failOnY : ArchiveWriteFunc Unit := fun info _ _ s =>
  if info.name = "y.txt".toList then (s, some "write failed") else (s, none)

/-- The tree `a/x.txt`, `a/b/y.txt`. -/
def treeA : FsNode :=
  FsNode.dir "a".toList none
    [FsNode.dir "b".toList none [FsNode.file "y.txt".toList [1] none],
     FsNode.file "x.txt".toList [2, 3] none]

/-- The tree `a/x.txt`, `a/b/`, where listing `a/b` fails. -/
def treeUnreadable : FsNode :=
  FsNode.dir "a".toList none
    [FsNode.dir "b".toList (some "permission denied") [],
     FsNode.file "x.txt".toList [2, 3] none]

/-- The tree `a/x.txt`, `a/b/y.txt`, where opening `a/b/y.txt` fails. -/
def treeUnopenable : FsNode :=
  FsNode.dir "a".toList none
    [FsNode.dir "b".toList none [FsNode.file "y.txt".toList [1] (some "open failed")],
     FsNode.file "x.txt".toList [2, 3] none]

/-- The tree `a/x.txt`, `a/z.txt`: one directory with two files. -/
def treeTwoFiles : FsNode :=
  FsNode.dir "a".toList none
    [FsNode.file "x.txt".toList [2, 3] none, FsNode.file "z.txt".toList [] none]

/-- The current directory holding `b.d/y.txt`. -/
def treeDotted : FsNode :=
  FsNode.dir ".".toList none
    [FsNode.dir "b.d".toList none [FsNode.file "y.txt".toList [1] none]]

/-- An encoder without state that accepts everything. -/
def unitEncoder : Encoder Unit :=
  ⟨fun _ => (), fun _ _ _ => ((), none), fun _ _ => ((), none), fun _ => ((), none)⟩

/-! ## Evaluations of the walk -/

/-- C1: on the tree `a/x.txt`, `a/b/y.txt`, `AddAll("a", false)` hands the callback the names
`/b/y.txt` and `x.txt`: the file in the subdirectory keeps the separator that followed the root
prefix, so its entry name is not the relative path `b/y.txt`. -/
theorem addAll_nested_entry_keeps_separator :
    entryNames (walkAll okWriter "a".toList false treeA ()).events
        = ["/b/y.txt".toList, "x.txt".toList]
      ∧ "b/y.txt".toList ∉ entryNames (walkAll okWriter "a".toList false treeA ()).events := by
  decide

/-- C3: when the walk of the subdirectory `a/b` fails (its listing fails, its file cannot be
opened, or the callback returns an error for its file), that walk returns the error, and the
top-level `addAll` call on `a` returns nil all the same. -/
theorem addAll_drops_subdirectory_error :
    (addAll okWriter "a".toList false "a/b".toList
        (FsNode.dir "b".toList (some "permission denied") []) ()).err = some "permission denied"
      ∧ (addAll okWriter "a".toList false "a".toList treeUnreadable ()).err = none
      ∧ (addAll okWriter "a".toList false "a/b".toList
        (FsNode.dir "b".toList none [FsNode.file "y.txt".toList [1] (some "open failed")])
          ()).err = some "open failed"
      ∧ (addAll okWriter "a".toList false "a".toList treeUnopenable ()).err = none
      ∧ (addAll failOnY "a".toList false "a/b".toList
        (FsNode.dir "b".toList none [FsNode.file "y.txt".toList [1] none]) ()).err
          = some "write failed"
      ∧ (addAll failOnY "a".toList false "a".toList treeA ()).err = none := by
  decide

/-- C4: on the tree `a/x.txt`, `a/b/y.txt` with a callback that fails on `y.txt`, the callback
returns its error for `a/b/y.txt` and is then called again, for `a/x.txt`. -/
theorem addAll_writes_after_callback_error :
    writeCalls (addAll failOnY "a".toList true "a".toList treeA ()).events
      = [("a/b/y.txt".toList, some "write failed"), ("a/x.txt".toList, none)] := by
  decide

/-- C6: `TarFile.Create("my.zip.d/out.zip")` stores `my.tar.gz.d/out.tar.gz`: every `.zip` in
the name is replaced, not only the trailing one, so the name is not `my.zip.d/out.tar.gz`. -/
theorem tarCreate_replaces_every_zip :
    (TarFile.Create unitEncoder (fun _ => none) ⟨none, []⟩
        ("my.zip.d/out".toList ++ ".zip".toList)).file.Name = "my.tar.gz.d/out.tar.gz".toList
      ∧ (TarFile.Create unitEncoder (fun _ => none) ⟨none, []⟩
        ("my.zip.d/out".toList ++ ".zip".toList)).file.Name
          ≠ "my.zip.d/out".toList ++ ".tar.gz".toList := by
  decide

/-- C10: `AddAll(".", false)` on a current directory holding `b.d/y.txt` calls
`getSubDir("b.d", ".", false)`: the root `.` is not a prefix of `b.d`, the occurrence that is
stripped is the dot inside the name, and the file is entered as `bd/y.txt`. -/
theorem addAll_dot_root_strips_inner_dot :
    subDirCalls (walkAll okWriter ".".toList false treeDotted ()).events
        = [("b.d".toList, ".".toList), (".".toList, ".".toList)]
      ∧ ¬ (".".toList <+: "b.d".toList)
      ∧ getSubDir "b.d".toList ".".toList false = "bd".toList
      ∧ entryNames (walkAll okWriter ".".toList false treeDotted ()).events
        = ["bd/y.txt".toList] := by
  decide

/-! ## Open file streams during a walk -/

theorem maxOpen_append (n : Nat) (xs ys : List Event) :
    maxOpen n (xs ++ ys) = max (maxOpen n xs) (maxOpen (xs.foldl openStep n) ys) := by
  induction xs generalizing n with
  | nil => cases ys <;> simp [maxOpen]
  | cons e rest ih => simp [maxOpen, ih, max_assoc]

theorem le_maxOpen (n : Nat) (xs : List Event) : n ≤ maxOpen n xs := by
  cases xs <;> simp [maxOpen]

theorem foldl_take_le_maxOpen (k n : Nat) (xs : List Event) :
    (xs.take k).foldl openStep n ≤ maxOpen n xs := by
  induction xs generalizing n k with
  | nil => simp [maxOpen]
  | cons e rest ih =>
    cases k with
    | zero => simpa using le_maxOpen n (e :: rest)
    | succ k =>
      simp only [List.take_succ_cons, List.foldl_cons, maxOpen]
      exact le_trans (ih k _) (le_max_right _ _)

theorem foldl_closed (n : Nat) (d : List Str) :
    (d.map Event.closed).foldl openStep n = n - d.length := by
  induction d generalizing n with
  | nil => simp
  | cons x rest ih => simp [ih, openStep]; omega

theorem maxOpen_closed (n : Nat) (d : List Str) : maxOpen n (d.map Event.closed) = n := by
  induction d generalizing n with
  | nil => simp [maxOpen]
  | cons x rest ih => simp [maxOpen, ih, openStep]

theorem writeFiles_open {σ : Type} (w : ArchiveWriteFunc σ) (dir subDir : Str)
    (l : List FsNode) (s : σ) (deferred : List Str) (n : Nat) :
    ∃ j, (writeFiles w dir subDir l s deferred).2.length = deferred.length + j
      ∧ j ≤ (relPathsOwn l).length
      ∧ (writeFiles w dir subDir l s deferred).1.events.foldl openStep n = n + j
      ∧ maxOpen n (writeFiles w dir subDir l s deferred).1.events ≤ n + j := by
  induction l generalizing s deferred n with
  | nil => exact ⟨0, by simp [writeFiles, maxOpen]⟩
  | cons x rest ih =>
    cases x with
    | dir nm r c =>
      obtain ⟨j, h1, h2, h3, h4⟩ := ih s deferred n
      exact ⟨j, by simpa [writeFiles, relPathsOwn] using ⟨h1, h2, h3, h4⟩⟩
    | file nm data openErr =>
      cases openErr with
      | some e => exact ⟨0, by simp [writeFiles, maxOpen]⟩
      | none =>
        simp only [writeFiles]
        split
        · exact ⟨1, by simp [maxOpen, openStep, relPathsOwn]⟩
        · rename_i hw
          obtain ⟨j, h1, h2, h3, h4⟩ :=
            ih (w ⟨nm, data.length, false⟩ ⟨pathJoin [dir, nm], data⟩ (pathJoin [subDir, nm]) s).1
              (pathJoin [dir, nm] :: deferred) (n + 1)
          refine ⟨j + 1, ?_, ?_, ?_, ?_⟩
          · simp [h1]; omega
          · simp [relPathsOwn]; omega
          · simp [openStep, h3]; omega
          · simp [maxOpen, openStep]; omega

mutual
theorem addAll_open {σ : Type} (w : ArchiveWriteFunc σ) (rootDir : Str) (icf : Bool) :
    ∀ (node : FsNode) (dir : Str) (s : σ) (n : Nat),
      (addAll w rootDir icf dir node s).events.foldl openStep n = n
        ∧ maxOpen n (addAll w rootDir icf dir node s).events ≤ n + node.maxOwnFiles
  | FsNode.file _ _ _, dir, s, n => by simp [addAll, maxOpen]
  | FsNode.dir _ (some e) _, dir, s, n => by simp [addAll, maxOpen]
  | FsNode.dir _ none children, dir, s, n => by
    obtain ⟨hs1, hs2⟩ := recurseDirs_open w rootDir icf children dir s n
    obtain ⟨j, h1, h2, h3, h4⟩ := writeFiles_open w dir (getSubDir dir rootDir icf) children
      (recurseDirs w rootDir icf dir children s).1 [] n
    simp only [addAll, FsNode.maxOwnFiles]
    constructor
    · simp [hs1, openStep, h3, foldl_closed, h1]
    · rw [maxOpen_append, hs1]
      simp only [maxOpen, openStep]
      rw [maxOpen_append, h3, maxOpen_closed]
      simp only [max_le_iff]
      omega
theorem recurseDirs_open {σ : Type} (w : ArchiveWriteFunc σ) (rootDir : Str) (icf : Bool) :
    ∀ (l : List FsNode) (dir : Str) (s : σ) (n : Nat),
      (recurseDirs w rootDir icf dir l s).2.foldl openStep n = n
        ∧ maxOpen n (recurseDirs w rootDir icf dir l s).2 ≤ n + maxOwnFilesList l
  | [], dir, s, n => by simp [recurseDirs, maxOpen]
  | FsNode.file _ _ _ :: rest, dir, s, n => by
    obtain ⟨h1, h2⟩ := recurseDirs_open w rootDir icf rest dir s n
    simp only [recurseDirs, maxOwnFilesList]
    exact ⟨h1, by omega⟩
  | FsNode.dir nm r c :: rest, dir, s, n => by
    obtain ⟨a1, a2⟩ := addAll_open w rootDir icf (FsNode.dir nm r c) (pathJoin [dir, nm]) s n
    obtain ⟨h1, h2⟩ := recurseDirs_open w rootDir icf rest dir
      (addAll w rootDir icf (pathJoin [dir, nm]) (FsNode.dir nm r c) s).state n
    simp only [recurseDirs, maxOwnFilesList]
    constructor
    · simp [a1, h1]
    · rw [maxOpen_append, a1]
      simp only [max_le_iff]
      omega
end

theorem writeFiles_deferred {σ : Type} (w : ArchiveWriteFunc σ) (dir subDir : Str) :
    ∀ (l : List FsNode) (s : σ) (deferred : List Str),
      (∀ p, Event.closed p ∉ (writeFiles w dir subDir l s deferred).1.events)
        ∧ (writeFiles w dir subDir l s deferred).2
          = (openedPaths (writeFiles w dir subDir l s deferred).1.events).reverse ++ deferred := by
  intro l
  induction l with
  | nil => intro s deferred; simp [writeFiles, openedPaths]
  | cons x rest ih =>
    intro s deferred
    cases x with
    | dir nm r c => simpa [writeFiles] using ih s deferred
    | file nm data openErr =>
      cases openErr with
      | some e => simp [writeFiles, openedPaths]
      | none =>
        simp only [writeFiles]
        split
        · simp [openedPaths]
        · obtain ⟨h1, h2⟩ := ih
            (w ⟨nm, data.length, false⟩ ⟨pathJoin [dir, nm], data⟩ (pathJoin [subDir, nm]) s).1
            (pathJoin [dir, nm] :: deferred)
          refine ⟨?_, ?_⟩
          · intro p hp
            simp only [List.mem_cons, reduceCtorEq, false_or] at hp
            exact h1 p hp
          · rw [h2]
            simp [openedPaths]

/-- C8, as stated, fails: in a directory with the two files `x.txt` and `z.txt` the walk opens
both before it closes either; after the fourth event two streams are open, and both closes run
only when the call returns. -/
theorem addAll_two_streams_open :
    (addAll okWriter "a".toList false "a".toList treeTwoFiles ()).events
        = [Event.resolved "a".toList "a".toList,
           Event.opened "a/x.txt".toList,
           Event.wrote ⟨"x.txt".toList, 2, false⟩ ⟨"a/x.txt".toList, [2, 3]⟩ "x.txt".toList none,
           Event.opened "a/z.txt".toList,
           Event.wrote ⟨"z.txt".toList, 0, false⟩ ⟨"a/z.txt".toList, []⟩ "z.txt".toList none,
           Event.closed "a/z.txt".toList,
           Event.closed "a/x.txt".toList]
      ∧ openCount ((addAll okWriter "a".toList false "a".toList treeTwoFiles ()).events.take 4)
        = 2 := by
  decide

/-- C8 (amended): the files an `addAll` call opens stay open until that call returns, when its
deferred closes run, the last opened first.  In the call on a directory `nm` that can be listed,
the events are those of the walks of its subdirectories, the call of `getSubDir`, then the events
`own` of the loop over its files, among which no file is closed, and last the closes of exactly
the files opened in `own`, in reverse order of opening; after any `j` events of `own` as many
streams are open as files were opened among them.  At every instant of a walk of any entry
(after any number `k` of its events) the number of open file streams is at most the largest
number of non-directory files that one directory of the tree lists, and no stream is open when
the walk has returned. -/
theorem addAll_open_streams_bounded {σ : Type} (w : ArchiveWriteFunc σ) (rootDir : Str)
    (icf : Bool) (dir : Str) (node : FsNode) (s : σ) (k : Nat)
    (nm : Str) (children : List FsNode) (j : Nat) :
    openCount ((addAll w rootDir icf dir node s).events.take k) ≤ node.maxOwnFiles
      ∧ openCount (addAll w rootDir icf dir node s).events = 0
      ∧ ∃ own : List Event,
        (addAll w rootDir icf dir (FsNode.dir nm none children) s).events
            = (recurseDirs w rootDir icf dir children s).2
              ++ Event.resolved dir rootDir
                :: (own ++ (openedPaths own).reverse.map Event.closed)
          ∧ (∀ p, Event.closed p ∉ own)
          ∧ openCount ((recurseDirs w rootDir icf dir children s).2
              ++ Event.resolved dir rootDir :: own.take j)
            = (openedPaths (own.take j)).length := by
  obtain ⟨h1, h2⟩ := addAll_open w rootDir icf node dir s 0
  refine ⟨?_, h1, ?_⟩
  · have h3 := foldl_take_le_maxOpen k 0 (addAll w rootDir icf dir node s).events
    unfold openCount
    omega
  · obtain ⟨d1, d2⟩ := writeFiles_deferred w dir (getSubDir dir rootDir icf) children
      (recurseDirs w rootDir icf dir children s).1 []
    refine ⟨(writeFiles w dir (getSubDir dir rootDir icf) children
      (recurseDirs w rootDir icf dir children s).1 []).1.events, ?_, d1, ?_⟩
    · simp only [addAll, d2, List.append_nil]
    · obtain ⟨r1, -⟩ := recurseDirs_open w rootDir icf children dir s 0
      have hfree : ∀ (l : List Event) (n : Nat), (∀ p, Event.closed p ∉ l) →
          l.foldl openStep n = n + (openedPaths l).length := by
        intro l
        induction l with
        | nil => intro n _; simp [openedPaths]
        | cons e rest ih =>
          intro n hc
          have hrest : ∀ p, Event.closed p ∉ rest := fun p hp => hc p (List.mem_cons_of_mem _ hp)
          cases e with
          | resolved a c => simpa [openStep, openedPaths] using ih n hrest
          | opened f =>
            simp only [List.foldl_cons, openStep, openedPaths, List.length_cons, ih _ hrest]
            omega
          | wrote i f e err => simpa [openStep, openedPaths] using ih n hrest
          | closed f => exact absurd (List.mem_cons_self _ _) (hc f)
      have htake : ∀ p, Event.closed p ∉ List.take j (writeFiles w dir
          (getSubDir dir rootDir icf) children
          (recurseDirs w rootDir icf dir children s).1 []).1.events :=
        fun p hp => d1 p (List.mem_of_mem_take hp)
      unfold openCount
      rw [List.foldl_append, r1, List.foldl_cons]
      simp only [openStep]
      rw [hfree _ 0 htake]
      omega

/-! ## Writers on which `Create` has not been called -/

/-- C9, as stated, fails: `Add` on a `ZipFile` whose `Writer` is nil panics; it returns no
error value. -/
theorem add_on_nil_writer_panics :
    (ZipFile.Add unitEncoder ⟨none, []⟩ "f".toList [1]).2 = GoResult.panicked
      ∧ ¬ ∃ e, (ZipFile.Add unitEncoder ⟨none, []⟩ "f".toList [1]).2 = GoResult.error e := by
  constructor
  · rfl
  · rintro ⟨e, h⟩
    have hp : (ZipFile.Add unitEncoder ⟨none, []⟩ "f".toList [1]).2 = GoResult.panicked := rfl
    rw [hp] at h
    cases h

/-- C9 (amended): on a `ZipFile` or `TarFile` whose `Writer` is nil, `Add` and `Close` panic
with a nil dereference, and `AddFile` returns the error of reading the file when the file cannot
be read and panics when it can.  None of the calls returns success. -/
theorem nil_writer_calls {W : Type} (enc : Encoder W) (readFile : Str → Except Err (List Nat))
    (nm name : Str) (file : List Nat) :
    (ZipFile.Add enc ⟨none, nm⟩ name file).2 = GoResult.panicked
      ∧ (TarFile.Add enc ⟨none, nm⟩ name file).2 = GoResult.panicked
      ∧ (ArchiveFile.Close enc ⟨none, nm⟩).2 = GoResult.panicked
      ∧ (ZipFile.AddFile enc readFile ⟨none, nm⟩ name).2
        = (match readFile name with
          | Except.error e => GoResult.error e
          | Except.ok _ => GoResult.panicked)
      ∧ (TarFile.AddFile enc readFile ⟨none, nm⟩ name).2
        = (match readFile name with
          | Except.error e => GoResult.error e
          | Except.ok _ => GoResult.panicked)
      ∧ (ZipFile.AddFile enc readFile ⟨none, nm⟩ name).2 ≠ GoResult.nil
      ∧ (TarFile.AddFile enc readFile ⟨none, nm⟩ name).2 ≠ GoResult.nil := by
  refine ⟨rfl, rfl, rfl, ?_, ?_, ?_, ?_⟩ <;>
    (simp only [ZipFile.AddFile, TarFile.AddFile]; cases readFile name <;> simp [writeEntry])

/-! ## `strings.Index` and `strings.Replace` -/

theorem stringsIndex_some {old : Str} :
    ∀ {s : Str} {j : Nat}, stringsIndex s old = some j → old <+: s.drop j ∧ j ≤ s.length := by
  intro s
  induction s with
  | nil =>
    intro j h
    by_cases ho : old = []
    · simp [stringsIndex, ho] at h
      subst h
      simp [ho]
    · simp [stringsIndex, ho] at h
  | cons c cs ih =>
    intro j h
    by_cases hp : old.isPrefixOf (c :: cs) = true
    · simp only [stringsIndex, hp, if_true, Option.some.injEq] at h
      subst h
      exact ⟨List.isPrefixOf_iff_prefix.mp hp, Nat.zero_le _⟩
    · simp only [stringsIndex, hp, Bool.false_eq_true, if_false, Option.map_eq_some'] at h
      obtain ⟨j', hj', rfl⟩ := h
      obtain ⟨h1, h2⟩ := ih hj'
      exact ⟨by simpa using h1, by simpa using h2⟩

theorem stringsIndex_le {old : Str} :
    ∀ {s : Str} {i : Nat}, old <+: s.drop i → i ≤ s.length →
      ∃ j, stringsIndex s old = some j ∧ j ≤ i := by
  intro s
  induction s with
  | nil =>
    intro i h _
    have ho : old = [] := by simpa using h
    exact ⟨0, by simp [stringsIndex, ho], Nat.zero_le _⟩
  | cons c cs ih =>
    intro i h hi
    by_cases hp : old.isPrefixOf (c :: cs) = true
    · exact ⟨0, by simp [stringsIndex, hp], Nat.zero_le _⟩
    · cases i with
      | zero => exact absurd (List.isPrefixOf_iff_prefix.mpr (by simpa using h)) hp
      | succ i =>
        obtain ⟨j, hj, hji⟩ := ih (i := i) (by simpa using h) (by simpa using hi)
        exact ⟨j + 1, by simp [stringsIndex, hp, hj], by omega⟩

theorem replaceLoop_nil (old new : Str) (hne : old ≠ []) (k : Nat) :
    replaceLoop old new k [] = [] := by
  cases k <;> simp [replaceLoop, stringsIndex, hne]

/-- The loop bound `len(s)` of `stringsReplace` is never the reason the loop stops: with a
non-empty `old`, any bound from `len(s)` on gives the same text. -/
theorem replaceLoop_bound (old new : Str) (hne : old ≠ []) :
    ∀ (k : Nat) (s : Str), s.length ≤ k →
      replaceLoop old new (k + 1) s = replaceLoop old new k s := by
  intro k
  induction k with
  | zero =>
    intro s hs
    have : s = [] := List.length_eq_zero.mp (Nat.le_zero.mp hs)
    subst this
    simp [replaceLoop, stringsIndex, hne]
  | succ k ih =>
    intro s hs
    rw [replaceLoop.eq_2 old new s (k + 1), replaceLoop.eq_2 old new s k]
    cases hj : stringsIndex s old with
    | none => rfl
    | some j =>
      have hold : 0 < old.length := List.length_pos.mpr hne
      have hlen : (s.drop (j + old.length)).length ≤ k := by
        simp only [List.length_drop]
        omega
      simp only [ih _ hlen]

theorem prefix_overlap {old u : Str} (h : old <+: u ++ old) (hlen : u.length ≤ old.length) :
    old.drop u.length <+: old := by
  have hu : u <+: old := List.prefix_of_prefix_length_le (List.prefix_append u old) h hlen
  obtain ⟨w, rfl⟩ := hu
  obtain ⟨v, hv⟩ := h
  have hw : w ++ v = u ++ w := by
    have : u ++ (w ++ v) = u ++ (u ++ w) := by simpa [List.append_assoc] using hv
    exact List.append_cancel_left this
  rw [List.drop_left]
  exact ⟨v, hw⟩

/-- Replacing every occurrence of a pattern that cannot overlap itself turns a text ending in
the pattern into a text ending in the replacement. -/
theorem replaceLoop_suffix (old new : Str) (hne : old ≠ [])
    (hb : ∀ k, 0 < k → k < old.length → ¬ (old.drop k <+: old)) :
    ∀ (k : Nat) (s : Str), s.length ≤ k → old <:+ s → new <:+ replaceLoop old new k s := by
  intro k
  induction k with
  | zero =>
    intro s hs hsuf
    have : s = [] := List.length_eq_zero.mp (Nat.le_zero.mp hs)
    subst this
    exact absurd (by simpa using hsuf) hne
  | succ k ih =>
    intro s hs hsuf
    obtain ⟨t, rfl⟩ := hsuf
    have hold : 0 < old.length := List.length_pos.mpr hne
    have hocc : old <+: (t ++ old).drop t.length := by simp
    obtain ⟨j, hj, hjt⟩ := stringsIndex_le hocc (by simp)
    obtain ⟨hpre, -⟩ := stringsIndex_some hj
    simp only [replaceLoop, hj]
    have hdrop : (t ++ old).drop j = t.drop j ++ old := by
      rw [List.drop_append_of_le_length hjt]
    rw [hdrop] at hpre
    rcases Nat.lt_or_ge (t.drop j).length old.length with hlt | hge
    · rcases Nat.eq_zero_or_pos (t.drop j).length with hz | hpos
      · have hjl : j = t.length := by
          simp only [List.length_drop] at hz
          omega
        subst hjl
        have hrest : (t ++ old).drop (t.length + old.length) = [] := by
          apply List.drop_eq_nil_of_le
          simp
        rw [hrest, replaceLoop_nil old new hne]
        simp
      · exact absurd (prefix_overlap hpre (Nat.le_of_lt hlt)) (hb _ hpos hlt)
    · have hle : j + old.length ≤ t.length := by
        simp only [List.length_drop] at hge
        omega
      have hrest : (t ++ old).drop (j + old.length) = t.drop (j + old.length) ++ old := by
        rw [List.drop_append_of_le_length hle]
      rw [hrest]
      have hlen : (t.drop (j + old.length) ++ old).length ≤ k := by
        simp only [List.length_append, List.length_drop] at hs ⊢
        omega
      obtain ⟨r, hr⟩ := ih _ hlen (List.suffix_append _ _)
      rw [← hr]
      exact ⟨List.take j (t ++ old) ++ new ++ r, by simp [List.append_assoc]⟩

theorem zip_no_overlap :
    ∀ k, 0 < k → k < ".zip".toList.length → ¬ (".zip".toList.drop k <+: ".zip".toList) := by
  intro k h0 hk
  have hk4 : k < 4 := hk
  interval_cases k <;> decide

theorem targz_no_overlap :
    ∀ k, 0 < k → k < ".tar.gz".toList.length →
      ¬ (".tar.gz".toList.drop k <+: ".tar.gz".toList) := by
  intro k h0 hk
  have hk7 : k < 7 := hk
  interval_cases k <;> decide

theorem zipCreateName_suffix (name : Str) : ".zip".toList <:+ zipCreateName name := by
  unfold zipCreateName
  cases h1 : hasSuffix name ".zip".toList
  · cases h2 : hasSuffix name ".tar.gz".toList
    · exact List.suffix_append _ _
    · have hs : ".tar.gz".toList <:+ name := List.isSuffixOf_iff_suffix.mp h2
      exact replaceLoop_suffix ".tar.gz".toList ".zip".toList (by decide) targz_no_overlap
        name.length name (le_refl _) hs
  · exact List.isSuffixOf_iff_suffix.mp h1

theorem tarCreateName_suffix (name : Str) : ".tar.gz".toList <:+ tarCreateName name := by
  unfold tarCreateName
  cases h1 : hasSuffix name ".tar.gz".toList
  · cases h2 : hasSuffix name ".zip".toList
    · exact List.suffix_append _ _
    · have hs : ".zip".toList <:+ name := List.isSuffixOf_iff_suffix.mp h2
      exact replaceLoop_suffix ".zip".toList ".tar.gz".toList (by decide) zip_no_overlap
        name.length name (le_refl _) hs
  · exact List.isSuffixOf_iff_suffix.mp h1

theorem zipCreate_name {W : Type} (enc : Encoder W) (osCreate : Str → Option Err)
    (a : ArchiveFile W) (name : Str) :
    (ZipFile.Create enc osCreate a name).file.Name = zipCreateName name
      ∧ (ZipFile.Create enc osCreate a name).created = zipCreateName name := by
  simp only [ZipFile.Create]
  constructor <;> split <;> rfl

theorem tarCreate_name {W : Type} (enc : Encoder W) (osCreate : Str → Option Err)
    (a : ArchiveFile W) (name : Str) :
    (TarFile.Create enc osCreate a name).file.Name = tarCreateName name
      ∧ (TarFile.Create enc osCreate a name).created = tarCreateName name := by
  simp only [TarFile.Create]
  constructor <;> split <;> rfl

/-- C7: for every input name, the name that `ZipFile.Create` stores and gives to `os.Create`
ends in `.zip`, and the name that `TarFile.Create` stores and gives to `os.Create` ends in
`.tar.gz`; a name ending in neither extension gets the extension of the variant appended, so
`Create("out")` gives `out.zip` and `out.tar.gz`. -/
theorem create_names_end_in_extension {W : Type} (enc : Encoder W)
    (osCreate : Str → Option Err) (a : ArchiveFile W) (name : Str) :
    ".zip".toList <:+ (ZipFile.Create enc osCreate a name).file.Name
      ∧ (ZipFile.Create enc osCreate a name).created
        = (ZipFile.Create enc osCreate a name).file.Name
      ∧ ".tar.gz".toList <:+ (TarFile.Create enc osCreate a name).file.Name
      ∧ (TarFile.Create enc osCreate a name).created
        = (TarFile.Create enc osCreate a name).file.Name
      ∧ (hasSuffix name ".zip".toList = true ∨ hasSuffix name ".tar.gz".toList = true
        ∨ ((ZipFile.Create enc osCreate a name).file.Name = name ++ ".zip".toList
          ∧ (TarFile.Create enc osCreate a name).file.Name = name ++ ".tar.gz".toList))
      ∧ (ZipFile.Create enc osCreate a "out".toList).file.Name = "out.zip".toList
      ∧ (TarFile.Create enc osCreate a "out".toList).file.Name = "out.tar.gz".toList := by
  obtain ⟨hz1, hz2⟩ := zipCreate_name enc osCreate a name
  obtain ⟨ht1, ht2⟩ := tarCreate_name enc osCreate a name
  refine ⟨?_, by rw [hz1, hz2], ?_, by rw [ht1, ht2], ?_, ?_, ?_⟩
  · rw [hz1]
    exact zipCreateName_suffix name
  · rw [ht1]
    exact tarCreateName_suffix name
  · rw [hz1, ht1]
    cases h1 : hasSuffix name ".zip".toList
    · cases h2 : hasSuffix name ".tar.gz".toList
      · right
        right
        unfold zipCreateName tarCreateName
        rw [h1, h2]
        exact ⟨rfl, rfl⟩
      · exact Or.inr (Or.inl rfl)
    · exact Or.inl rfl
  · rw [(zipCreate_name enc osCreate a "out".toList).1]
    decide
  · rw [(tarCreate_name enc osCreate a "out".toList).1]
    decide

/-! ## One callback invocation per file -/

theorem writtenInfos_append (xs ys : List Event) :
    writtenInfos (xs ++ ys) = writtenInfos xs ++ writtenInfos ys := by
  induction xs with
  | nil => rfl
  | cons e rest ih => cases e <;> simp [writtenInfos, ih]

theorem writtenInfos_closed (d : List Str) : writtenInfos (d.map Event.closed) = [] := by
  induction d with
  | nil => rfl
  | cons x rest ih => simpa [writtenInfos] using ih

theorem writeFiles_infos {σ : Type} (w : ArchiveWriteFunc σ)
    (hw : ∀ i r e s, (w i r e s).2 = none) (dir subDir : Str) :
    ∀ (l : List FsNode) (s : σ) (deferred : List Str), healthyList l = true →
      writtenInfos (writeFiles w dir subDir l s deferred).1.events = ownFiles l
        ∧ (writeFiles w dir subDir l s deferred).1.err = none := by
  intro l
  induction l with
  | nil => intro s deferred _; simp [writeFiles, writtenInfos, ownFiles]
  | cons x rest ih =>
    intro s deferred hh
    simp only [healthyList, Bool.and_eq_true] at hh
    cases x with
    | dir nm r c => simpa [writeFiles, ownFiles] using ih s deferred hh.2
    | file nm data openErr =>
      cases openErr with
      | some e => simp [FsNode.healthy] at hh
      | none =>
        simp only [writeFiles, hw]
        obtain ⟨h1, h2⟩ := ih
          (w ⟨nm, data.length, false⟩ ⟨pathJoin [dir, nm], data⟩ (pathJoin [subDir, nm]) s).1
          (pathJoin [dir, nm] :: deferred) hh.2
        exact ⟨by simp [writtenInfos, ownFiles, h1], h2⟩

mutual
theorem addAll_infos {σ : Type} (w : ArchiveWriteFunc σ)
    (hw : ∀ i r e s, (w i r e s).2 = none) (rootDir : Str) (icf : Bool) :
    ∀ (node : FsNode) (dir : Str) (s : σ), node.isDir = true → node.healthy = true →
      (writtenInfos (addAll w rootDir icf dir node s).events).Perm node.files
        ∧ (addAll w rootDir icf dir node s).err = none
  | FsNode.file _ _ _, dir, s, hd, _ => by simp [FsNode.isDir] at hd
  | FsNode.dir _ (some e) _, dir, s, _, hh => by simp [FsNode.healthy] at hh
  | FsNode.dir _ none children, dir, s, _, hh => by
    simp only [FsNode.healthy, Option.isNone_none, Bool.true_and] at hh
    have hq := recurseDirs_infos w hw rootDir icf children dir s hh
    obtain ⟨h1, h2⟩ := writeFiles_infos w hw dir (getSubDir dir rootDir icf) children
      (recurseDirs w rootDir icf dir children s).1 [] hh
    simp only [addAll, FsNode.files]
    refine ⟨?_, h2⟩
    rw [writtenInfos_append]
    simp only [writtenInfos, writtenInfos_append, writtenInfos_closed, List.append_nil, h1]
    exact hq
theorem recurseDirs_infos {σ : Type} (w : ArchiveWriteFunc σ)
    (hw : ∀ i r e s, (w i r e s).2 = none) (rootDir : Str) (icf : Bool) :
    ∀ (l : List FsNode) (dir : Str) (s : σ), healthyList l = true →
      (writtenInfos (recurseDirs w rootDir icf dir l s).2 ++ ownFiles l).Perm (filesOfList l)
  | [], dir, s, _ => by simp [recurseDirs, writtenInfos, ownFiles, filesOfList]
  | FsNode.file nm data oe :: rest, dir, s, hh => by
    simp only [healthyList, Bool.and_eq_true] at hh
    have ih := recurseDirs_infos w hw rootDir icf rest dir s hh.2
    simp only [recurseDirs, ownFiles, filesOfList, FsNode.files, List.singleton_append]
    exact List.perm_middle.trans (List.Perm.cons _ ih)
  | FsNode.dir nm r c :: rest, dir, s, hh => by
    simp only [healthyList, Bool.and_eq_true] at hh
    obtain ⟨h1, -⟩ := addAll_infos w hw rootDir icf (FsNode.dir nm r c) (pathJoin [dir, nm]) s
      rfl hh.1
    have ih := recurseDirs_infos w hw rootDir icf rest dir
      (addAll w rootDir icf (pathJoin [dir, nm]) (FsNode.dir nm r c) s).state hh.2
    simp only [recurseDirs, ownFiles, filesOfList, writtenInfos_append, List.append_assoc]
    exact List.Perm.append h1 ih
end

mutual
theorem files_not_dir : ∀ (node : FsNode) (i : FileInfo), i ∈ node.files → i.isDir = false
  | FsNode.file _ _ _, i, h => by
    simp only [FsNode.files, List.mem_singleton] at h
    rw [h]
  | FsNode.dir _ _ children, i, h => by
    simp only [FsNode.files] at h
    exact filesOfList_not_dir children i h
theorem filesOfList_not_dir :
    ∀ (l : List FsNode) (i : FileInfo), i ∈ filesOfList l → i.isDir = false
  | [], i, h => by simp [filesOfList] at h
  | x :: rest, i, h => by
    simp only [filesOfList, List.mem_append] at h
    rcases h with h | h
    · exact files_not_dir x i h
    · exact filesOfList_not_dir rest i h
end

/-- C5: on a directory tree in which every listing, open and callback call succeeds, `addAll`
calls the write callback once for each non-directory file of the tree, at any depth, and never
for a directory: the files handed to the callback are the files of the tree up to order, their
number is the number of non-directory files, none of them is a directory, and the walk returns
nil. -/
theorem addAll_writes_each_file_once {σ : Type} (w : ArchiveWriteFunc σ) (rootDir : Str)
    (icf : Bool) (dir : Str) (node : FsNode) (s : σ)
    (hd : node.isDir = true) (hh : node.healthy = true)
    (hw : ∀ i r e s, (w i r e s).2 = none) :
    (writtenInfos (addAll w rootDir icf dir node s).events).Perm node.files
      ∧ (writtenInfos (addAll w rootDir icf dir node s).events).length = node.files.length
      ∧ (∀ i ∈ writtenInfos (addAll w rootDir icf dir node s).events, i.isDir = false)
      ∧ (addAll w rootDir icf dir node s).err = none := by
  obtain ⟨h1, h2⟩ := addAll_infos w hw rootDir icf node dir s hd hh
  exact ⟨h1, h1.length_eq, fun i hi => files_not_dir node i (h1.mem_iff.mp hi), h2⟩

/-- C5 at the tree `a/x.txt`, `a/b/y.txt` with a callback that always succeeds. -/
theorem addAll_writes_each_file_once_witness :
    treeA.isDir = true ∧ treeA.healthy = true
      ∧ (writtenInfos (addAll okWriter "a".toList false "a".toList treeA ()).events).Perm
        treeA.files
      ∧ (writtenInfos (addAll okWriter "a".toList false "a".toList treeA ()).events).length
        = treeA.files.length
      ∧ (∀ i ∈ writtenInfos (addAll okWriter "a".toList false "a".toList treeA ()).events,
        i.isDir = false)
      ∧ (addAll okWriter "a".toList false "a".toList treeA ()).err = none :=
  ⟨by decide, by decide,
    addAll_writes_each_file_once okWriter "a".toList false "a".toList treeA ()
      (by decide) (by decide) (fun _ _ _ _ => rfl)⟩

/-! ## `strings.Split`, `strings.Join` and `path.Clean` on paths that grow by one name -/

theorem splitSlash_ne_nil (s : Str) : splitSlash s ≠ [] := by
  cases s with
  | nil => simp [splitSlash]
  | cons c cs =>
    by_cases hc : c = '/'
    · simp [splitSlash, hc]
    · simp only [splitSlash, hc, if_false]
      split <;> simp

theorem splitSlash_append (x y : Str) :
    splitSlash (x ++ '/' :: y) = splitSlash x ++ splitSlash y := by
  induction x with
  | nil => simp [splitSlash]
  | cons c cs ih =>
    by_cases hc : c = '/'
    · simp [splitSlash, hc, ih]
    · rw [List.cons_append]
      simp only [splitSlash, hc, if_false]
      rw [ih]
      cases h : splitSlash cs with
      | nil => exact absurd h (splitSlash_ne_nil cs)
      | cons a t => simp

theorem splitSlash_of_not_mem {n : Str} (h : '/' ∉ n) : splitSlash n = [n] := by
  induction n with
  | nil => rfl
  | cons c cs ih =>
    simp only [List.mem_cons, not_or] at h
    have hc : c ≠ '/' := fun e => h.1 e.symm
    simp [splitSlash, hc, ih h.2]

theorem not_mem_of_mem_splitSlash :
    ∀ (s : Str) (c : Str), c ∈ splitSlash s → '/' ∉ c := by
  intro s
  induction s with
  | nil =>
    intro c hc
    simp only [splitSlash, List.mem_singleton] at hc
    simp [hc]
  | cons a cs ih =>
    intro c hc
    by_cases ha : a = '/'
    · simp only [splitSlash, ha, if_true, List.mem_cons] at hc
      rcases hc with hc | hc
      · simp [hc]
      · exact ih c hc
    · simp only [splitSlash, ha, if_false] at hc
      cases h : splitSlash cs with
      | nil => exact absurd h (splitSlash_ne_nil cs)
      | cons x t =>
        rw [h] at hc
        simp only [List.mem_cons] at hc
        rcases hc with hc | hc
        · have hx := ih x (by simp [h])
          subst hc
          simp only [List.mem_cons, not_or]
          exact ⟨fun e => ha e.symm, hx⟩
        · exact ih c (by simp [h, hc])

theorem joinSlash_pair (a b : Str) (t : List Str) :
    joinSlash (a :: b :: t) = a ++ '/' :: joinSlash (b :: t) := by
  simp [joinSlash, List.intercalate, List.intersperse]

theorem joinSlash_single (a : Str) : joinSlash [a] = a := by
  simp [joinSlash, List.intercalate, List.intersperse]

theorem joinSlash_snoc (out : List Str) (n : Str) (h : out ≠ []) :
    joinSlash (out ++ [n]) = joinSlash out ++ '/' :: n := by
  induction out with
  | nil => exact absurd rfl h
  | cons a t ih =>
    cases t with
    | nil => simp [joinSlash_pair, joinSlash_single]
    | cons b t' =>
      have := ih (by simp)
      rw [List.cons_append, List.cons_append, joinSlash_pair, ← List.cons_append, this,
        joinSlash_pair]
      simp

theorem validName_iff (n : Str) :
    validName n = true ↔ n ≠ [] ∧ '/' ∉ n ∧ n ≠ ['.'] ∧ n ≠ ['.', '.'] := by
  simp [validName, and_assoc]

theorem cleanStep_valid (rooted : Bool) (out : List Str) (n : Str) (h : validName n = true) :
    cleanStep rooted out n = n :: out := by
  obtain ⟨h1, -, h3, h4⟩ := (validName_iff n).mp h
  simp [cleanStep, h1, h3, h4]

theorem pathClean_of_ne_nil (x : Str) (hx : x ≠ []) :
    pathClean x =
      if decide (x.head? = some '/') = true then
        '/' :: joinSlash ((splitSlash x).foldl
          (cleanStep (decide (x.head? = some '/'))) []).reverse
      else if ((splitSlash x).foldl (cleanStep (decide (x.head? = some '/'))) []).reverse = []
        then ['.']
      else joinSlash ((splitSlash x).foldl
          (cleanStep (decide (x.head? = some '/'))) []).reverse := by
  simp only [pathClean, hx, if_false]

/-- Cleaning a path that was extended by `/` and a valid name: the name is appended to the
cleaned path, unless the cleaned path is `.` or `/`. -/
theorem pathClean_snoc (x n : Str) (hx : x ≠ []) (h1 : pathClean x ≠ ['.'])
    (h2 : pathClean x ≠ ['/']) (hn : validName n = true) :
    pathClean (x ++ '/' :: n) = pathClean x ++ '/' :: n := by
  obtain ⟨-, hslash, -, -⟩ := (validName_iff n).mp hn
  have hhead : (x ++ '/' :: n).head? = x.head? := by
    cases x with
    | nil => exact absurd rfl hx
    | cons c cs => rfl
  have hne : x ++ '/' :: n ≠ [] := by simp
  rw [pathClean_of_ne_nil x hx] at h1 h2 ⊢
  rw [pathClean_of_ne_nil _ hne, hhead]
  generalize decide (x.head? = some '/') = r at h1 h2 ⊢
  have hfold : (splitSlash (x ++ '/' :: n)).foldl (cleanStep r) []
      = n :: (splitSlash x).foldl (cleanStep r) [] := by
    rw [splitSlash_append, splitSlash_of_not_mem hslash, List.foldl_append]
    simp [cleanStep_valid _ _ _ hn]
  rw [hfold, List.reverse_cons]
  generalize ((splitSlash x).foldl (cleanStep r) []).reverse = out at h1 h2 ⊢
  have hout : out ≠ [] := by
    intro h
    subst h
    cases r
    · exact h1 (by simp)
    · exact h2 (by simp [joinSlash, List.intercalate])
  cases r
  · simp [hout, joinSlash_snoc _ _ hout]
  · simp [joinSlash_snoc _ _ hout]

theorem stablePath_iff (p : Str) :
    stablePath p = true ↔ p ≠ [] ∧ pathClean p = p ∧ p ≠ ['.'] ∧ p ≠ ['/'] := by
  simp [stablePath, and_assoc]

theorem stablePath_snoc (p n : Str) (hp : stablePath p = true) (hn : validName n = true) :
    stablePath (p ++ '/' :: n) = true := by
  obtain ⟨h0, h1, h2, h3⟩ := (stablePath_iff p).mp hp
  have hc := pathClean_snoc p n h0 (by rw [h1]; exact h2) (by rw [h1]; exact h3) hn
  rw [h1] at hc
  obtain ⟨hn0, -, -, -⟩ := (validName_iff n).mp hn
  rw [stablePath_iff]
  refine ⟨by simp, hc, ?_, ?_⟩
  · intro h
    have := congrArg List.length h
    have hl := List.length_pos.mpr h0
    simp at this
    omega
  · intro h
    have := congrArg List.length h
    have hl := List.length_pos.mpr h0
    simp at this
    omega

theorem pathJoin_pair (a n : Str) (ha : a ≠ []) :
    pathJoin [a, n] = pathClean (a ++ '/' :: n) := by
  simp [pathJoin, ha, joinSlash_pair, joinSlash_single]

theorem pathJoin_stable (p n : Str) (hp : stablePath p = true) (hn : validName n = true) :
    pathJoin [p, n] = p ++ '/' :: n := by
  obtain ⟨h0, h1, h2, h3⟩ := (stablePath_iff p).mp hp
  rw [pathJoin_pair p n h0, pathClean_snoc p n h0 (by rw [h1]; exact h2) (by rw [h1]; exact h3) hn,
    h1]

theorem stringsReplace_strip_root (root suf : Str) (hr : root ≠ []) :
    stringsReplace (root ++ suf) root [] 1 = suf := by
  have hlen : min (1 : Int).toNat (root ++ suf).length = 1 := by
    have : 0 < (root ++ suf).length := by
      simp only [List.length_append]
      have := List.length_pos.mpr hr
      omega
    simp only [Int.toNat_one]
    omega
  have hidx : stringsIndex (root ++ suf) root = some 0 := by
    cases hrs : root ++ suf with
    | nil => simp [hr] at hrs
    | cons c cs =>
      have : root.isPrefixOf (c :: cs) = true := by
        rw [← hrs]
        exact List.isPrefixOf_iff_prefix.mpr (List.prefix_append _ _)
      simp [stringsIndex, this]
  simp only [stringsReplace, hr, false_or, one_ne_zero, if_false, hlen]
  simp [replaceLoop, hidx]

/-! ## Entry names under the root folder's base name -/

theorem cleanStep_base (b : Str) (h1 : b ≠ []) (h2 : b ≠ ['.']) :
    cleanStep false [] b = [b] := by
  by_cases h3 : b = ['.', '.']
  · subst h3
    rfl
  · simp [cleanStep, h1, h2, h3]

theorem head_ne_slash (b : Str) (hs : '/' ∉ b) : decide (b.head? = some '/') = false := by
  cases b with
  | nil => rfl
  | cons c cs =>
    simp only [List.mem_cons, not_or] at hs
    simp only [List.head?_cons, Option.some.injEq, decide_eq_false_iff_not]
    exact fun e => hs.1 e.symm

theorem stablePath_base (b : Str) (h1 : b ≠ []) (h2 : b ≠ ['.']) (hs : '/' ∉ b) :
    stablePath b = true := by
  rw [stablePath_iff]
  refine ⟨h1, ?_, h2, ?_⟩
  · rw [pathClean_of_ne_nil b h1, head_ne_slash b hs, splitSlash_of_not_mem hs]
    simp [cleanStep_base b h1 h2, joinSlash_single]
  · intro h
    subst h
    simp at hs

theorem pathClean_base_slash (b : Str) (h1 : b ≠ []) (h2 : b ≠ ['.']) (hs : '/' ∉ b) :
    pathClean (b ++ ['/']) = b := by
  have hne : b ++ ['/'] ≠ [] := by simp
  have hhead : (b ++ ['/']).head? = b.head? := by
    cases b with
    | nil => exact absurd rfl h1
    | cons c cs => rfl
  rw [pathClean_of_ne_nil _ hne, hhead, head_ne_slash b hs, splitSlash_append,
    splitSlash_of_not_mem hs]
  simp [splitSlash, cleanStep_base b h1 h2, cleanStep, joinSlash_single, h1, h2]

theorem root_stable (root b : Str) (hclean : pathClean root = root)
    (hb : (splitSlash root).getLast? = some b) (h1 : b ≠ []) (h2 : b ≠ ['.']) :
    stablePath root = true := by
  rw [stablePath_iff]
  refine ⟨?_, hclean, ?_, ?_⟩
  · intro h
    subst h
    simp [splitSlash] at hb
    exact h1 hb
  · intro h
    subst h
    simp [splitSlash] at hb
    exact h2 hb.symm
  · intro h
    subst h
    simp [splitSlash] at hb
    exact h1 hb

theorem entryNames_append (xs ys : List Event) :
    entryNames (xs ++ ys) = entryNames xs ++ entryNames ys := by
  induction xs with
  | nil => rfl
  | cons e rest ih => cases e <;> simp [entryNames, ih]

theorem entryNames_closed (d : List Str) : entryNames (d.map Event.closed) = [] := by
  induction d with
  | nil => rfl
  | cons x rest ih => simpa [entryNames] using ih

theorem writeFiles_names {σ : Type} (w : ArchiveWriteFunc σ)
    (hw : ∀ i r e s, (w i r e s).2 = none) (dir subDir : Str)
    (hsub : stablePath subDir = true) :
    ∀ (l : List FsNode) (s : σ) (deferred : List Str), healthyList l = true →
      wellNamedList l = true →
      entryNames (writeFiles w dir subDir l s deferred).1.events
        = (relPathsOwn l).map (fun n => subDir ++ '/' :: n) := by
  intro l
  induction l with
  | nil => intro s deferred _ _; simp [writeFiles, entryNames, relPathsOwn]
  | cons x rest ih =>
    intro s deferred hh hn
    simp only [healthyList, Bool.and_eq_true] at hh
    simp only [wellNamedList, Bool.and_eq_true] at hn
    cases x with
    | dir nm r c => simpa [writeFiles, relPathsOwn] using ih s deferred hh.2 hn.2
    | file nm data openErr =>
      cases openErr with
      | some e => simp [FsNode.healthy] at hh
      | none =>
        have hv : validName nm = true := by simpa [FsNode.entryName] using hn.1.1
        simp only [writeFiles, hw]
        have ih1 := fun s d => ih s d hh.2 hn.2
        simp [entryNames, relPathsOwn, ih1, pathJoin_stable subDir nm hsub hv]

theorem getSubDir_include (root b suf : Str) (hroot : root ≠ [])
    (hb : (splitSlash root).getLast? = some b) (h1 : b ≠ [])
    (hc : pathClean (b ++ '/' :: suf) = b ++ suf) :
    getSubDir (root ++ suf) root true = b ++ suf := by
  simp only [getSubDir, if_true, stringsReplace_strip_root root suf hroot, hb, Option.getD_some]
  rw [pathJoin_pair b suf h1, hc]

theorem pathClean_slash_snoc (b suf n : Str)
    (hc : pathClean (b ++ '/' :: suf) = b ++ suf) (hs : stablePath (b ++ suf) = true)
    (hn : validName n = true) :
    pathClean (b ++ '/' :: (suf ++ '/' :: n)) = b ++ (suf ++ '/' :: n) := by
  obtain ⟨-, -, k2, k3⟩ := (stablePath_iff _).mp hs
  have hx : b ++ '/' :: suf ≠ [] := by simp
  have := pathClean_snoc (b ++ '/' :: suf) n hx (by rw [hc]; exact k2) (by rw [hc]; exact k3) hn
  rw [hc] at this
  simpa [List.append_assoc] using this

mutual
theorem addAll_names {σ : Type} (w : ArchiveWriteFunc σ)
    (hw : ∀ i r e s, (w i r e s).2 = none) (root b : Str)
    (hb : (splitSlash root).getLast? = some b) (hb1 : b ≠ []) :
    ∀ (node : FsNode) (suf : Str) (s : σ),
      stablePath (root ++ suf) = true → stablePath (b ++ suf) = true →
      pathClean (b ++ '/' :: suf) = b ++ suf →
      node.isDir = true → node.healthy = true → node.wellNamed = true →
      entryNames (addAll w root true (root ++ suf) node s).events
        = node.relPaths.map (fun p => b ++ suf ++ '/' :: p)
  | FsNode.file _ _ _, suf, s, _, _, _, hd, _, _ => by simp [FsNode.isDir] at hd
  | FsNode.dir _ (some e) _, suf, s, _, _, _, _, hh, _ => by simp [FsNode.healthy] at hh
  | FsNode.dir _ none children, suf, s, k1, k2, k3, _, hh, hn => by
    simp only [FsNode.healthy, Option.isNone_none, Bool.true_and] at hh
    simp only [FsNode.wellNamed] at hn
    have hroot : root ≠ [] := by
      intro h
      subst h
      simp [splitSlash] at hb
      exact hb1 hb
    have hq := recurseDirs_names w hw root b hb hb1 children suf s k1 k2 k3 hh hn
    have hsub := getSubDir_include root b suf hroot hb hb1 k3
    have hf := writeFiles_names w hw (root ++ suf) (b ++ suf) k2 children
      (recurseDirs w root true (root ++ suf) children s).1 [] hh hn
    simp only [addAll, FsNode.relPaths, hsub, entryNames_append, entryNames,
      entryNames_closed, List.append_nil, hq, hf, List.map_append, List.map_map]
theorem recurseDirs_names {σ : Type} (w : ArchiveWriteFunc σ)
    (hw : ∀ i r e s, (w i r e s).2 = none) (root b : Str)
    (hb : (splitSlash root).getLast? = some b) (hb1 : b ≠ []) :
    ∀ (l : List FsNode) (suf : Str) (s : σ),
      stablePath (root ++ suf) = true → stablePath (b ++ suf) = true →
      pathClean (b ++ '/' :: suf) = b ++ suf →
      healthyList l = true → wellNamedList l = true →
      entryNames (recurseDirs w root true (root ++ suf) l s).2
        = (relPathsDirs l).map (fun p => b ++ suf ++ '/' :: p)
  | [], suf, s, _, _, _, _, _ => by simp [recurseDirs, entryNames, relPathsDirs]
  | FsNode.file nm data oe :: rest, suf, s, k1, k2, k3, hh, hn => by
    simp only [healthyList, Bool.and_eq_true] at hh
    simp only [wellNamedList, Bool.and_eq_true] at hn
    simpa [recurseDirs, relPathsDirs] using
      recurseDirs_names w hw root b hb hb1 rest suf s k1 k2 k3 hh.2 hn.2
  | FsNode.dir nm r c :: rest, suf, s, k1, k2, k3, hh, hn => by
    simp only [healthyList, Bool.and_eq_true] at hh
    simp only [wellNamedList, Bool.and_eq_true] at hn
    have hv : validName nm = true := by simpa [FsNode.entryName] using hn.1.1
    have hfull : pathJoin [root ++ suf, nm] = root ++ (suf ++ '/' :: nm) := by
      rw [pathJoin_stable _ nm k1 hv, List.append_assoc]
    have j1 : stablePath (root ++ (suf ++ '/' :: nm)) = true := by
      rw [← List.append_assoc]
      exact stablePath_snoc _ nm k1 hv
    have j2 : stablePath (b ++ (suf ++ '/' :: nm)) = true := by
      rw [← List.append_assoc]
      exact stablePath_snoc _ nm k2 hv
    have j3 := pathClean_slash_snoc b suf nm k3 k2 hv
    have ha := addAll_names w hw root b hb hb1 (FsNode.dir nm r c) (suf ++ '/' :: nm) s
      j1 j2 j3 rfl hh.1 hn.1.2
    have ih := recurseDirs_names w hw root b hb hb1 rest suf
      (addAll w root true (root ++ (suf ++ '/' :: nm)) (FsNode.dir nm r c) s).state
      k1 k2 k3 hh.2 hn.2
    simp only [recurseDirs, relPathsDirs, hfull, entryNames_append, ha, ih, List.map_append,
      List.map_map]
    simp [Function.comp_def, List.append_assoc]
end

theorem writeFiles_names_sublist {σ : Type} (w : ArchiveWriteFunc σ) (dir subDir : Str)
    (hsub : stablePath subDir = true) :
    ∀ (l : List FsNode) (s : σ) (deferred : List Str), wellNamedList l = true →
      (entryNames (writeFiles w dir subDir l s deferred).1.events).Sublist
        ((relPathsOwn l).map (fun n => subDir ++ '/' :: n)) := by
  intro l
  induction l with
  | nil => intro s deferred _; simp [writeFiles, entryNames, relPathsOwn]
  | cons x rest ih =>
    intro s deferred hn
    simp only [wellNamedList, Bool.and_eq_true] at hn
    cases x with
    | dir nm r c => simpa [writeFiles, relPathsOwn] using ih s deferred hn.2
    | file nm data openErr =>
      have hv : validName nm = true := by simpa [FsNode.entryName] using hn.1.1
      cases openErr with
      | some e => simp [writeFiles, entryNames]
      | none =>
        simp only [writeFiles, pathJoin_stable subDir nm hsub hv, relPathsOwn, List.map_cons]
        split
        · simp [entryNames]
        · simp only [entryNames]
          exact List.Sublist.cons₂ _ (ih _ _ hn.2)

mutual
theorem addAll_names_sublist {σ : Type} (w : ArchiveWriteFunc σ) (root b : Str)
    (hb : (splitSlash root).getLast? = some b) (hb1 : b ≠ []) :
    ∀ (node : FsNode) (suf : Str) (s : σ),
      stablePath (root ++ suf) = true → stablePath (b ++ suf) = true →
      pathClean (b ++ '/' :: suf) = b ++ suf → node.wellNamed = true →
      (entryNames (addAll w root true (root ++ suf) node s).events).Sublist
        (node.relPaths.map (fun p => b ++ suf ++ '/' :: p))
  | FsNode.file _ _ _, suf, s, _, _, _, _ => by simp [addAll, entryNames]
  | FsNode.dir _ (some e) _, suf, s, _, _, _, _ => by simp [addAll, entryNames]
  | FsNode.dir _ none children, suf, s, k1, k2, k3, hn => by
    simp only [FsNode.wellNamed] at hn
    have hroot : root ≠ [] := by
      intro h
      subst h
      simp [splitSlash] at hb
      exact hb1 hb
    have hq := recurseDirs_names_sublist w root b hb hb1 children suf s k1 k2 k3 hn
    have hsub := getSubDir_include root b suf hroot hb hb1 k3
    have hf := writeFiles_names_sublist w (root ++ suf) (b ++ suf) k2 children
      (recurseDirs w root true (root ++ suf) children s).1 [] hn
    simp only [addAll, FsNode.relPaths, hsub, entryNames_append, entryNames,
      entryNames_closed, List.append_nil, List.map_append]
    exact List.Sublist.append hq hf
theorem recurseDirs_names_sublist {σ : Type} (w : ArchiveWriteFunc σ) (root b : Str)
    (hb : (splitSlash root).getLast? = some b) (hb1 : b ≠ []) :
    ∀ (l : List FsNode) (suf : Str) (s : σ),
      stablePath (root ++ suf) = true → stablePath (b ++ suf) = true →
      pathClean (b ++ '/' :: suf) = b ++ suf → wellNamedList l = true →
      (entryNames (recurseDirs w root true (root ++ suf) l s).2).Sublist
        ((relPathsDirs l).map (fun p => b ++ suf ++ '/' :: p))
  | [], suf, s, _, _, _, _ => by simp [recurseDirs, entryNames, relPathsDirs]
  | FsNode.file nm data oe :: rest, suf, s, k1, k2, k3, hn => by
    simp only [wellNamedList, Bool.and_eq_true] at hn
    simpa [recurseDirs, relPathsDirs] using
      recurseDirs_names_sublist w root b hb hb1 rest suf s k1 k2 k3 hn.2
  | FsNode.dir nm r c :: rest, suf, s, k1, k2, k3, hn => by
    simp only [wellNamedList, Bool.and_eq_true] at hn
    have hv : validName nm = true := by simpa [FsNode.entryName] using hn.1.1
    have hfull : pathJoin [root ++ suf, nm] = root ++ (suf ++ '/' :: nm) := by
      rw [pathJoin_stable _ nm k1 hv, List.append_assoc]
    have j1 : stablePath (root ++ (suf ++ '/' :: nm)) = true := by
      rw [← List.append_assoc]
      exact stablePath_snoc _ nm k1 hv
    have j2 : stablePath (b ++ (suf ++ '/' :: nm)) = true := by
      rw [← List.append_assoc]
      exact stablePath_snoc _ nm k2 hv
    have j3 := pathClean_slash_snoc b suf nm k3 k2 hv
    have ha := addAll_names_sublist w root b hb hb1 (FsNode.dir nm r c) (suf ++ '/' :: nm) s
      j1 j2 j3 hn.1.2
    have ih := recurseDirs_names_sublist w root b hb hb1 rest suf
      (addAll w root true (root ++ (suf ++ '/' :: nm)) (FsNode.dir nm r c) s).state
      k1 k2 k3 hn.2
    have hmap : (FsNode.dir nm r c).relPaths.map
          (fun p => b ++ (suf ++ '/' :: nm) ++ '/' :: p)
        = ((FsNode.dir nm r c).relPaths.map (fun p => nm ++ '/' :: p)).map
          (fun p => b ++ suf ++ '/' :: p) := by
      simp [Function.comp_def, List.append_assoc]
    rw [hmap] at ha
    simp only [recurseDirs, relPathsDirs, hfull, entryNames_append, List.map_append]
    exact List.Sublist.append ha ih
end

/-- C2: for a clean root path whose final component `b` is neither empty nor `.` and a tree of
validly named entries, every entry name that `AddAll(root, true)` hands to the write callback is
`b/p` for the relative path `p` of a non-directory file below the root, in the order of the
walk; and when every listing, open and callback call succeeds, the names handed over are exactly
the names `b/p` of all those files. -/
theorem addAll_include_root_entry_names {σ : Type} (w : ArchiveWriteFunc σ) (root b : Str)
    (node : FsNode) (s : σ)
    (hclean : pathClean root = root)
    (hb : (splitSlash root).getLast? = some b) (hb1 : b ≠ []) (hb2 : b ≠ ['.'])
    (hn : node.wellNamed = true) :
    (entryNames (walkAll w root true node s).events).Sublist
        (node.relPaths.map (fun p => b ++ '/' :: p))
      ∧ (node.isDir = true → node.healthy = true → (∀ i r e s, (w i r e s).2 = none) →
        entryNames (walkAll w root true node s).events
          = node.relPaths.map (fun p => b ++ '/' :: p)) := by
  have hslash : '/' ∉ b :=
    not_mem_of_mem_splitSlash root b (List.mem_of_getLast?_eq_some hb)
  have k1 : stablePath (root ++ []) = true := by
    rw [List.append_nil]
    exact root_stable root b hclean hb hb1 hb2
  have k2 : stablePath (b ++ []) = true := by
    rw [List.append_nil]
    exact stablePath_base b hb1 hb2 hslash
  have k3 : pathClean (b ++ '/' :: []) = b ++ [] := by
    rw [List.append_nil]
    exact pathClean_base_slash b hb1 hb2 hslash
  constructor
  · have := addAll_names_sublist w root b hb hb1 node [] s k1 k2 k3 hn
    simp only [List.append_nil] at this
    simpa [walkAll, hclean] using this
  · intro hd hh hw
    have := addAll_names w hw root b hb hb1 node [] s k1 k2 k3 hd hh hn
    simp only [List.append_nil] at this
    simpa [walkAll, hclean] using this

/-- C2 at the tree `a/x.txt`, `a/b/y.txt` with root `a`: the entry names are `a/b/y.txt` and
`a/x.txt`. -/
theorem addAll_include_root_entry_names_witness :
    pathClean "a".toList = "a".toList
      ∧ (splitSlash "a".toList).getLast? = some "a".toList
      ∧ treeA.isDir = true ∧ treeA.healthy = true ∧ treeA.wellNamed = true
      ∧ treeA.relPaths = ["b/y.txt".toList, "x.txt".toList]
      ∧ entryNames (walkAll okWriter "a".toList true treeA ()).events
        = treeA.relPaths.map (fun p => "a".toList ++ '/' :: p) :=
  ⟨by decide, by decide, by decide, by decide, by decide, by decide,
    (addAll_include_root_entry_names okWriter "a".toList "a".toList treeA ()
      (by decide) (by decide) (by decide) (by decide) (by decide)).2
      (by decide) (by decide) (fun _ _ _ _ => rfl)⟩

end Archivex
